import Mathlib

/-!
Verification of the csvpretty column-width allocator and line wrapper.

Shallow embedding of the core algorithms of `src/main.rs`:

* `calculate_column_widths` (constrained / wrap-mode branch), split here into
  `waterfall_phase1` (allocate natural widths to the smallest columns first),
  `waterfall_phase2` (proportional distribution over the columns that must
  wrap) and `allocate_constrained` (the dispatcher over the fits / zero /
  oversubscribed cases).  Machine integers are modelled as `Nat`;
  `saturating_sub` is `Nat` truncated subtraction; the one subtraction in the
  source that is *not* saturating (`unallocated_cols -= 1` in the
  proportional pass) is modelled as fallible, returning `none` exactly when
  the Rust expression underflows (a panic in debug builds).

* `wrap_text`, `wrap_text_word`, `wrap_text_char` and the whitespace
  splitter.  Unicode display-width measurement is consumed as a capability:
  a parameter `cw : Char → Nat` giving the display width of each character,
  with the width of a string the sum over its characters (`strWidth`).

Strings are modelled as `List Char`.  Rust's stable `sort_by_key` is
modelled by insertion sort (`List.insertionSort`), which is also stable and
hence extensionally identical to any stable sort with the same key order.
-/

/-- Display width of a string: the sum of the display widths of its
characters, where `cw` is the consumed Unicode-width capability. -/
def strWidth (cw : Char → Nat) (s : List Char) : Nat :=
  (s.map cw).sum

/-- The `WrapMode` enum from the source: `word`, `char` or `none`. -/
inductive WrapMode where
  | word
  | char
  | none
deriving DecidableEq, Repr

/-- Rust's `char::is_whitespace`: the Unicode `White_Space` code points. -/
def is_whitespace (c : Char) : Bool :=
  c == ' ' || c == '\t' || c == '\n' || c == '\x0b' || c == '\x0c' || c == '\r'
    || c == '\u0085' || c == ' ' || c == ' '
    || (decide (0x2000 ≤ c.toNat) && decide (c.toNat ≤ 0x200a))
    || c == ' ' || c == ' ' || c == ' ' || c == ' '
    || c == '　'

/-- Accumulator loop of Rust's `str::split_whitespace`: `acc` is the word
currently being read (empty if between words). -/
def split_whitespace_aux (acc : List Char) : List Char → List (List Char)
  | [] => if acc.isEmpty then [] else [acc]
  | c :: rest =>
    if is_whitespace c then
      if acc.isEmpty then split_whitespace_aux [] rest
      else acc :: split_whitespace_aux [] rest
    else
      split_whitespace_aux (acc ++ [c]) rest

/-- Rust's `str::split_whitespace`: split on runs of whitespace, dropping
empty fragments. -/
def split_whitespace (text : List Char) : List (List Char) :=
  split_whitespace_aux [] text

/-- The character loop of `wrap_text_char` (src/main.rs:528-557), carrying
the source's mutable state: finished `lines`, the `current_line` and its
tracked `current_width`. -/
def wrap_char_loop (cw : Char → Nat) (maxWidth : Nat) :
    List Char → List (List Char) → List Char → Nat → List (List Char)
  | [], lines, currentLine, _ =>
    let lines' := if currentLine.isEmpty then lines else lines ++ [currentLine]
    if lines'.isEmpty then [[]] else lines'
  | ch :: rest, lines, currentLine, currentWidth =>
    if currentWidth + cw ch ≤ maxWidth then
      wrap_char_loop cw maxWidth rest lines (currentLine ++ [ch]) (currentWidth + cw ch)
    else
      wrap_char_loop cw maxWidth rest
        (if currentLine.isEmpty then lines else lines ++ [currentLine])
        [ch] (cw ch)

/-- `wrap_text_char` (src/main.rs:528-557): greedy character wrapping. -/
def wrap_text_char (cw : Char → Nat) (text : List Char) (maxWidth : Nat) :
    List (List Char) :=
  wrap_char_loop cw maxWidth text [] [] 0

/-- The word loop of `wrap_text_word` (src/main.rs:476-526), iterating over
the whitespace-split words with the source's mutable state.  The `+ 1` for
the joining space mirrors the source's `current_width + 1 + word_width`. -/
def wrap_word_loop (cw : Char → Nat) (maxWidth : Nat) :
    List (List Char) → List (List Char) → List Char → Nat → List (List Char)
  | [], lines, currentLine, _ =>
    let lines' := if currentLine.isEmpty then lines else lines ++ [currentLine]
    if lines'.isEmpty then [[]] else lines'
  | word :: rest, lines, currentLine, currentWidth =>
    let wordWidth := strWidth cw word
    if currentWidth = 0 then
      if wordWidth ≤ maxWidth then
        wrap_word_loop cw maxWidth rest lines word wordWidth
      else
        wrap_word_loop cw maxWidth rest
          (lines ++ wrap_text_char cw word maxWidth) currentLine currentWidth
    else if currentWidth + 1 + wordWidth ≤ maxWidth then
      wrap_word_loop cw maxWidth rest lines
        (currentLine ++ [' '] ++ word) (currentWidth + 1 + wordWidth)
    else
      if wordWidth ≤ maxWidth then
        wrap_word_loop cw maxWidth rest (lines ++ [currentLine]) word wordWidth
      else
        wrap_word_loop cw maxWidth rest
          ((lines ++ [currentLine]) ++ wrap_text_char cw word maxWidth) [] 0

/-- `wrap_text_word` (src/main.rs:476-526): greedy word wrapping with the
character-split fallback for over-wide words. -/
def wrap_text_word (cw : Char → Nat) (text : List Char) (maxWidth : Nat) :
    List (List Char) :=
  wrap_word_loop cw maxWidth (split_whitespace text) [] [] 0

/-- `wrap_text` (src/main.rs:458-474): empty-text special case, then
dispatch on the wrap mode. -/
def wrap_text (cw : Char → Nat) (text : List Char) (maxWidth : Nat)
    (mode : WrapMode) : List (List Char) :=
  if text.isEmpty then [[]]
  else
    match mode with
    | WrapMode.none => [text]
    | WrapMode.word => wrap_text_word cw text maxWidth
    | WrapMode.char => wrap_text_char cw text maxWidth

/-- Result of the first pass of the waterfall allocation
(src/main.rs:281-293): the widths vector, the remaining budget, the count of
still-unallocated columns, and the suffix of the sorted column list at which
the loop `break`-ed (empty if the loop ran to completion). -/
structure Phase1Out where
  widths : List Nat
  remaining : Nat
  unalloc : Nat
  rest : List (Nat × Nat)
deriving Repr

/-- First waterfall pass (src/main.rs:281-293): walk the columns sorted
ascending by natural width; a column whose natural width fits within the
even share of the remaining budget is granted it, otherwise the loop
breaks. -/
def waterfall_phase1 :
    List (Nat × Nat) → List Nat → Nat → Nat → Phase1Out
  | [], widths, remaining, unalloc => ⟨widths, remaining, unalloc, []⟩
  | (colIdx, natural) :: rest, widths, remaining, unalloc =>
    if natural ≤ remaining / unalloc then
      waterfall_phase1 rest (widths.set colIdx natural)
        (remaining - natural) (unalloc - 1)
    else
      ⟨widths, remaining, unalloc, (colIdx, natural) :: rest⟩

/-- Second waterfall pass (src/main.rs:296-322): proportional distribution
over the columns still at width 0.  `remaining`, `unallocNatural` and
`perColMin` are the loop-invariant values the source computes before the
loop; `unalloc` and `leftover` are its mutable counters.  The source's
`unallocated_cols -= 1` is a non-saturating `usize` subtraction: when it
would underflow (`unalloc = 0`), the model returns `none`. -/
def waterfall_phase2 (remaining unallocNatural perColMin : Nat) :
    List (Nat × Nat) → List Nat → Nat → Nat → Option (List Nat)
  | [], widths, _, _ => some widths
  | (colIdx, _) :: rest, widths, 0, leftover =>
    if widths.getD colIdx 0 = 0 then none
    else
      waterfall_phase2 remaining unallocNatural perColMin rest widths 0
        leftover
  | (colIdx, natural) :: rest, widths, u + 1, leftover =>
    if widths.getD colIdx 0 = 0 then
      if u = 0 then
        waterfall_phase2 remaining unallocNatural perColMin rest
          (widths.set colIdx (max leftover 5)) u leftover
      else if 0 < unallocNatural then
        waterfall_phase2 remaining unallocNatural perColMin rest
          (widths.set colIdx
            (max (max (remaining * natural / unallocNatural) perColMin) 5))
          u
          (leftover -
            max (max (remaining * natural / unallocNatural) perColMin) 5)
      else
        waterfall_phase2 remaining unallocNatural perColMin rest
          (widths.set colIdx (max perColMin 5)) u
          (leftover - max perColMin 5)
    else
      waterfall_phase2 remaining unallocNatural perColMin rest widths
        (u + 1) leftover

/-- Constrained-mode width allocation (src/main.rs:246-325), taking the
already-computed natural widths and the available content budget: zero-total
fallback, the fits-naturally branch (last column absorbs leftover), and the
oversubscribed waterfall. -/
def allocate_constrained (naturalWidths : List Nat) (availableWidth : Nat) :
    Option (List Nat) :=
  let numCols := naturalWidths.length
  let totalNatural := naturalWidths.sum
  if totalNatural = 0 then
    some (List.replicate numCols 10)
  else if totalNatural ≤ availableWidth then
    if naturalWidths.sum < availableWidth then
      some (naturalWidths.set (numCols - 1)
        (naturalWidths.getD (numCols - 1) 0 +
          (availableWidth - naturalWidths.sum)))
    else
      some naturalWidths
  else
    let sortedCols :=
      (naturalWidths.enum).insertionSort (fun a b => a.2 ≤ b.2)
    let r := waterfall_phase1 sortedCols (List.replicate numCols 0)
      availableWidth numCols
    if 0 < r.unalloc then
      let unallocNatural :=
        ((sortedCols.filter (fun p => r.widths.getD p.1 0 = 0)).map
          Prod.snd).sum
      waterfall_phase2 r.remaining unallocNatural (r.remaining / r.unalloc)
        sortedCols r.widths r.unalloc r.remaining
    else
      some r.widths

/-- Constrained-mode entry of `calculate_column_widths`
(src/main.rs:214-229): fixed per-row and per-column overhead subtracted
(saturating) from the terminal width, then allocation over the natural
widths. -/
def calculate_column_widths_wrap (naturalWidths : List Nat)
    (terminalWidth rowNumWidth : Nat) : Option (List Nat) :=
  let rowOverhead := if 0 < rowNumWidth then rowNumWidth + 3 else 0
  let overhead := rowOverhead + naturalWidths.length * 3
  allocate_constrained naturalWidths (terminalWidth - overhead)

/-- Fixed overhead of the constrained layout (src/main.rs:222-227):
the row-number gutter (if shown) plus 3 characters per column. -/
def layout_overhead (numCols rowNumWidth : Nat) : Nat :=
  (if 0 < rowNumWidth then rowNumWidth + 3 else 0) + numCols * 3

/-- Joining a list of lines with single spaces (the re-joining operation of
the idempotence property). -/
def join_with_spaces : List (List Char) → List Char
  | [] => []
  | [l] => l
  | l :: l' :: rest => l ++ [' '] ++ join_with_spaces (l' :: rest)

/-- Invariant of one output group of the word loop (a maximal run of words
packed onto one line): the group is non-empty, its words are non-empty,
whitespace-free and individually no wider than the wrap width, the joined
line fits the wrap width, and a group whose first word has display width 0
is that single word (a zero-width accumulator is never extended, because
the loop's `current_width == 0` test routes the next word to the overwrite
branch). -/
def wordGroupOK (cw : Char → Nat) (mw : Nat) (g : List (List Char)) : Prop :=
  g ≠ [] ∧
  (∀ w ∈ g, w ≠ [] ∧ (∀ c ∈ w, is_whitespace c = false) ∧
    strWidth cw w ≤ mw) ∧
  strWidth cw (join_with_spaces g) ≤ mw ∧
  (strWidth cw g.headI = 0 → g = [g.headI])

/-- Invariant between two consecutive output groups of the word loop: the
earlier line was closed with positive width (the loop only pushes a
non-empty accumulator on a word arrival when `current_width ≠ 0`), and
appending the next group's first word would have overflowed the wrap
width — which makes the greedy break reproducible. -/
def groupBreakOK (cw : Char → Nat) (mw : Nat)
    (g1 g2 : List (List Char)) : Prop :=
  1 ≤ strWidth cw (join_with_spaces g1) ∧
  mw < strWidth cw (join_with_spaces g1) + 1 + strWidth cw g2.headI

/-! ## Basic helper lemmas -/

theorem strWidth_nil (cw : Char → Nat) : strWidth cw [] = 0 := rfl

theorem strWidth_append (cw : Char → Nat) (a b : List Char) :
    strWidth cw (a ++ b) = strWidth cw a + strWidth cw b := by
  simp [strWidth]

theorem strWidth_cons (cw : Char → Nat) (c : Char) (s : List Char) :
    strWidth cw (c :: s) = cw c + strWidth cw s := by
  simp [strWidth]

theorem getD_set_self (l : List Nat) (i v : Nat) (h : i < l.length) :
    (l.set i v).getD i 0 = v := by
  induction l generalizing i with
  | nil => simp at h
  | cons a t ih =>
    cases i with
    | zero => simp
    | succ j => simpa using ih j (by simpa using h)

theorem getD_set_ne (l : List Nat) (i j v : Nat) (h : i ≠ j) :
    (l.set i v).getD j 0 = l.getD j 0 := by
  induction l generalizing i j with
  | nil => simp
  | cons a t ih =>
    cases i with
    | zero =>
      cases j with
      | zero => exact absurd rfl h
      | succ j' => simp
    | succ i' =>
      cases j with
      | zero => simp
      | succ j' => simpa using ih i' j' (by omega)

theorem sum_set_getD (l : List Nat) (i v : Nat) (h : i < l.length) :
    (l.set i v).sum + l.getD i 0 = l.sum + v := by
  induction l generalizing i with
  | nil => simp at h
  | cons a t ih =>
    cases i with
    | zero => simp [Nat.add_comm, Nat.add_left_comm]
    | succ j =>
      have := ih j (by simpa using h)
      simp only [List.set_cons_succ, List.sum_cons, List.getD_cons_succ]
      omega

theorem getD_replicate_zero (n i : Nat) :
    (List.replicate n 0).getD i 0 = 0 := by
  induction n generalizing i with
  | zero => simp
  | succ m ih =>
    cases i with
    | zero => simp
    | succ j => simp [ih j]

/-! ## Character wrapping: content preservation and basic shape -/

theorem wrap_char_loop_join (cw : Char → Nat) (mw : Nat) :
    ∀ (rest : List Char) (lines : List (List Char)) (cur : List Char)
      (w : Nat),
      (wrap_char_loop cw mw rest lines cur w).flatten =
        lines.flatten ++ cur ++ rest := by
  intro rest
  induction rest with
  | nil =>
    intro lines cur w
    cases cur <;> cases lines <;> simp [wrap_char_loop]
  | cons ch rest ih =>
    intro lines cur w
    by_cases h : w + cw ch ≤ mw
    · simp only [wrap_char_loop, if_pos h, ih]
      simp
    · simp only [wrap_char_loop, if_neg h, ih]
      cases cur <;> simp

/-- C9: for every wrap policy and every width, wrapping the empty string
returns exactly one line, the empty string — never an empty sequence. -/
theorem c9_wrap_empty_text (cw : Char → Nat) (w : Nat) (mode : WrapMode) :
    wrap_text cw [] w mode = [[]] := by
  simp [wrap_text]

/-- C7: Char-policy wrapping never drops content: for every input text and
every width, concatenating the returned lines in order yields exactly the
original text. -/
theorem c7_char_wrap_preserves_content (cw : Char → Nat) (text : List Char)
    (w : Nat) : (wrap_text cw text w WrapMode.char).flatten = text := by
  by_cases h : text.isEmpty
  · have h' : text = [] := by simpa using h
    subst h'
    simp [wrap_text]
  · simp only [wrap_text, h, Bool.false_eq_true, if_false]
    have := wrap_char_loop_join cw w text [] [] 0
    simpa [wrap_text_char] using this

theorem wrap_char_loop_nil_mem (cw : Char → Nat) (mw : Nat)
    (lines : List (List Char)) (cur l : List Char) (w : Nat)
    (hl : l ∈ wrap_char_loop cw mw [] lines cur w) :
    l = [] ∨ l ∈ lines ∨ l = cur := by
  cases cur <;> cases lines <;> simp [wrap_char_loop] at hl ⊢ <;> tauto

theorem wrap_word_loop_nil_mem (cw : Char → Nat) (mw : Nat)
    (lines : List (List Char)) (cur l : List Char) (w : Nat)
    (hl : l ∈ wrap_word_loop cw mw [] lines cur w) :
    l = [] ∨ l ∈ lines ∨ l = cur := by
  cases cur <;> cases lines <;> simp [wrap_word_loop] at hl ⊢ <;> tauto

theorem wrap_char_loop_ne_nil (cw : Char → Nat) (mw : Nat) :
    ∀ (rest : List Char) (lines : List (List Char)) (cur : List Char)
      (w : Nat), wrap_char_loop cw mw rest lines cur w ≠ [] := by
  intro rest
  induction rest with
  | nil =>
    intro lines cur w
    cases cur <;> cases lines <;> simp [wrap_char_loop]
  | cons ch rest ih =>
    intro lines cur w
    by_cases h : w + cw ch ≤ mw
    · rw [wrap_char_loop, if_pos h]
      exact ih _ _ _
    · rw [wrap_char_loop, if_neg h]
      exact ih _ _ _

theorem wrap_word_loop_ne_nil (cw : Char → Nat) (mw : Nat) :
    ∀ (ws : List (List Char)) (lines : List (List Char)) (cur : List Char)
      (w : Nat), wrap_word_loop cw mw ws lines cur w ≠ [] := by
  intro ws
  induction ws with
  | nil =>
    intro lines cur w
    cases cur <;> cases lines <;> simp [wrap_word_loop]
  | cons word rest ih =>
    intro lines cur w
    simp only [wrap_word_loop]
    split
    · split
      · exact ih _ _ _
      · exact ih _ _ _
    · split
      · exact ih _ _ _
      · split
        · exact ih _ _ _
        · exact ih _ _ _

theorem wrap_char_loop_bound (cw : Char → Nat) (mw : Nat) :
    ∀ (rest : List Char) (lines : List (List Char)) (cur : List Char)
      (w : Nat),
      w = strWidth cw cur →
      (∀ l ∈ lines, strWidth cw l ≤ mw ∨ ∃ c, l = [c] ∧ mw < cw c) →
      (strWidth cw cur ≤ mw ∨ ∃ c, cur = [c] ∧ mw < cw c) →
      ∀ l ∈ wrap_char_loop cw mw rest lines cur w,
        strWidth cw l ≤ mw ∨ ∃ c, l = [c] ∧ mw < cw c := by
  intro rest
  induction rest with
  | nil =>
    intro lines cur w _ hlines hcur l hl
    rcases wrap_char_loop_nil_mem cw mw lines cur l w hl with h | h | h
    · subst h
      left
      simp [strWidth]
    · exact hlines l h
    · subst h
      exact hcur
  | cons ch rest ih =>
    intro lines cur w hw hlines hcur l hl
    by_cases h : w + cw ch ≤ mw
    · rw [wrap_char_loop, if_pos h] at hl
      refine ih _ _ _ ?_ hlines ?_ l hl
      · rw [hw, strWidth_append, strWidth_cons, strWidth_nil]
        omega
      · left
        calc strWidth cw (cur ++ [ch]) = w + cw ch := by
              rw [hw, strWidth_append, strWidth_cons, strWidth_nil]
              omega
          _ ≤ mw := h
    · rw [wrap_char_loop, if_neg h] at hl
      refine ih _ _ _ ?_ ?_ ?_ l hl
      · simp [strWidth]
      · intro l' hl'
        split at hl'
        · exact hlines l' hl'
        · rcases List.mem_append.mp hl' with h' | h'
          · exact hlines l' h'
          · simp only [List.mem_singleton] at h'
            subst h'
            exact hcur
      · by_cases hch : cw ch ≤ mw
        · left
          simpa [strWidth] using hch
        · right
          exact ⟨ch, rfl, by omega⟩

theorem wrap_text_char_bound (cw : Char → Nat) (word : List Char)
    (mw : Nat) :
    ∀ l ∈ wrap_text_char cw word mw,
      strWidth cw l ≤ mw ∨ ∃ c, l = [c] ∧ mw < cw c := by
  intro l hl
  exact wrap_char_loop_bound cw mw word [] [] 0 (by simp [strWidth])
    (by simp) (by left; simp [strWidth]) l hl

theorem wrap_word_loop_bound (cw : Char → Nat) (mw : Nat)
    (hsp : cw ' ' = 1) :
    ∀ (ws : List (List Char)) (lines : List (List Char)) (cur : List Char)
      (w : Nat),
      w = strWidth cw cur →
      strWidth cw cur ≤ mw →
      (∀ l ∈ lines, strWidth cw l ≤ mw ∨ ∃ c, l = [c] ∧ mw < cw c) →
      ∀ l ∈ wrap_word_loop cw mw ws lines cur w,
        strWidth cw l ≤ mw ∨ ∃ c, l = [c] ∧ mw < cw c := by
  intro ws
  induction ws with
  | nil =>
    intro lines cur w _ hcur hlines l hl
    rcases wrap_word_loop_nil_mem cw mw lines cur l w hl with h | h | h
    · subst h
      left
      simp [strWidth]
    · exact hlines l h
    · subst h
      left
      exact hcur
  | cons word rest ih =>
    intro lines cur w hw hcur hlines l hl
    simp only [wrap_word_loop] at hl
    split at hl
    · -- current_width = 0
      split at hl
      · -- word fits on its own line
        next hfit =>
        exact ih lines word _ rfl hfit hlines l hl
      · -- word too long: char-split, current line unchanged
        refine ih _ cur w hw hcur ?_ l hl
        intro l' hl'
        rcases List.mem_append.mp hl' with h' | h'
        · exact hlines l' h'
        · exact wrap_text_char_bound cw word mw l' h'
    · split at hl
      · -- word appended to the current line
        next hzero hfit =>
        refine ih _ _ _ ?_ ?_ hlines l hl
        · rw [strWidth_append, strWidth_append, strWidth_cons, strWidth_nil,
            hsp, hw]
        · calc strWidth cw (cur ++ [' '] ++ word)
              = w + 1 + strWidth cw word := by
                rw [strWidth_append, strWidth_append, strWidth_cons,
                  strWidth_nil, hsp, hw]
            _ ≤ mw := hfit
      · split at hl
        · -- current line pushed, word starts the next line
          next hfit =>
          refine ih _ word _ rfl hfit ?_ l hl
          intro l' hl'
          rcases List.mem_append.mp hl' with h' | h'
          · exact hlines l' h'
          · simp only [List.mem_singleton] at h'
            subst h'
            left
            exact hcur
        · -- current line pushed, word char-split, accumulator reset
          refine ih _ [] 0 (by simp [strWidth]) (by simp [strWidth]) ?_ l hl
          intro l' hl'
          rcases List.mem_append.mp hl' with h' | h'
          · rcases List.mem_append.mp h' with h'' | h''
            · exact hlines l' h''
            · simp only [List.mem_singleton] at h''
              subst h''
              left
              exact hcur
          · exact wrap_text_char_bound cw word mw l' h'

theorem split_whitespace_aux_all_ws :
    ∀ (text : List Char), (∀ c ∈ text, is_whitespace c) →
      split_whitespace_aux [] text = [] := by
  intro text
  induction text with
  | nil => intro _; rfl
  | cons c rest ih =>
    intro h
    have hc : is_whitespace c := h c (by simp)
    simp only [split_whitespace_aux, hc, List.isEmpty_nil, if_true]
    exact ih fun c' hc' => h c' (by simp [hc'])

/-- C5: for every input text and every width ≥ 1, wrapping with policy Word
or Char returns a non-empty sequence of lines, each of display width at most
the requested width, except that a line made of a single character whose own
display width exceeds the requested width may be over-wide.  The space
character is assumed to measure one column, as Unicode prescribes. -/
theorem c5_wrapped_lines_fit (cw : Char → Nat) (text : List Char) (w : Nat)
    (mode : WrapMode) (_hw : 1 ≤ w) (hsp : cw ' ' = 1)
    (hmode : mode = WrapMode.word ∨ mode = WrapMode.char) :
    wrap_text cw text w mode ≠ [] ∧
      ∀ l ∈ wrap_text cw text w mode,
        strWidth cw l ≤ w ∨ ∃ c, l = [c] ∧ w < cw c := by
  by_cases ht : text.isEmpty
  · rw [wrap_text.eq_def, if_pos ht]
    refine ⟨by simp, ?_⟩
    intro l hl
    simp only [List.mem_singleton] at hl
    subst hl
    left
    simp [strWidth]
  · rw [wrap_text.eq_def, if_neg ht]
    rcases hmode with h | h <;> subst h
    · refine ⟨wrap_word_loop_ne_nil cw w _ _ _ _, ?_⟩
      intro l hl
      exact wrap_word_loop_bound cw w hsp (split_whitespace text) [] [] 0
        (by simp [strWidth]) (by simp [strWidth]) (by simp) l hl
    · refine ⟨wrap_char_loop_ne_nil cw w _ _ _ _, ?_⟩
      intro l hl
      exact wrap_char_loop_bound cw w text [] [] 0 (by simp [strWidth])
        (by simp) (by left; simp [strWidth]) l hl

/-- Witness for `c5_wrapped_lines_fit`: unit character widths, text `"ab"`,
width 1, policy Char. -/
theorem c5_wrapped_lines_fit_witness :
    ((1 : Nat) ≤ 1 ∧ (fun _ : Char => 1) ' ' = 1 ∧
        (WrapMode.char = WrapMode.word ∨ WrapMode.char = WrapMode.char)) ∧
      (wrap_text (fun _ => 1) "ab".toList 1 WrapMode.char ≠ [] ∧
        ∀ l ∈ wrap_text (fun _ => 1) "ab".toList 1 WrapMode.char,
          strWidth (fun _ => 1) l ≤ 1 ∨
            ∃ c, l = [c] ∧ 1 < (fun _ : Char => 1) c) :=
  ⟨⟨by decide, rfl, Or.inr rfl⟩,
    c5_wrapped_lines_fit (fun _ => 1) "ab".toList 1 WrapMode.char
      (by decide) rfl (Or.inr rfl)⟩

/-- C10: for every non-empty text consisting only of whitespace characters
and every width, wrapping with policy Word returns exactly one line, the
empty string — the whitespace content is discarded entirely. -/
theorem c10_whitespace_only_word (cw : Char → Nat) (text : List Char)
    (w : Nat) (hne : text ≠ []) (hws : ∀ c ∈ text, is_whitespace c) :
    wrap_text cw text w WrapMode.word = [[]] := by
  have ht : text.isEmpty = false := by
    cases text with
    | nil => exact absurd rfl hne
    | cons a as => rfl
  simp only [wrap_text, ht, Bool.false_eq_true, if_false]
  show wrap_text_word cw text w = [[]]
  rw [wrap_text_word, split_whitespace, split_whitespace_aux_all_ws text hws]
  rfl

/-- Witness for `c10_whitespace_only_word`: a single space at width 4. -/
theorem c10_whitespace_only_word_witness :
    (([' '] : List Char) ≠ [] ∧ ∀ c ∈ ([' '] : List Char), is_whitespace c) ∧
      wrap_text (fun _ => 1) [' '] 4 WrapMode.word = [[]] :=
  ⟨⟨by decide, by decide⟩,
    c10_whitespace_only_word (fun _ => 1) [' '] 4 (by decide) (by decide)⟩

/-! ## Word-wrap idempotence support -/

theorem split_whitespace_aux_word_props :
    ∀ (text acc : List Char), (∀ c ∈ acc, is_whitespace c = false) →
      ∀ w ∈ split_whitespace_aux acc text,
        w ≠ [] ∧ ∀ c ∈ w, is_whitespace c = false := by
  intro text
  induction text with
  | nil =>
    intro acc hacc w hw
    simp only [split_whitespace_aux] at hw
    split at hw
    · simp at hw
    · next h =>
      simp only [List.mem_singleton] at hw
      subst hw
      exact ⟨by simpa using h, hacc⟩
  | cons c rest ih =>
    intro acc hacc w hw
    simp only [split_whitespace_aux] at hw
    by_cases hc : is_whitespace c
    · rw [if_pos hc] at hw
      by_cases ha : acc.isEmpty
      · rw [if_pos ha] at hw
        exact ih [] (by simp) w hw
      · rw [if_neg ha] at hw
        rcases List.mem_cons.mp hw with hw | hw
        · subst hw
          exact ⟨by simpa using ha, hacc⟩
        · exact ih [] (by simp) w hw
    · rw [if_neg hc] at hw
      refine ih (acc ++ [c]) ?_ w hw
      intro c' hc'
      rcases List.mem_append.mp hc' with h' | h'
      · exact hacc c' h'
      · simp only [List.mem_singleton] at h'
        subst h'
        simpa using hc

theorem split_whitespace_word_props (text : List Char) :
    ∀ w ∈ split_whitespace text,
      w ≠ [] ∧ ∀ c ∈ w, is_whitespace c = false :=
  split_whitespace_aux_word_props text [] (by simp)

theorem split_whitespace_aux_word_prefix :
    ∀ (w acc rest : List Char), (∀ c ∈ w, is_whitespace c = false) →
      split_whitespace_aux acc (w ++ rest) =
        split_whitespace_aux (acc ++ w) rest := by
  intro w
  induction w with
  | nil => intro acc rest _; simp
  | cons c w' ih =>
    intro acc rest h
    have hc : is_whitespace c = false := h c (by simp)
    have step : split_whitespace_aux acc ((c :: w') ++ rest) =
        split_whitespace_aux (acc ++ [c]) (w' ++ rest) := by
      simp only [List.cons_append, split_whitespace_aux]
      rw [if_neg (by simp [hc])]
      rfl
    rw [step, ih (acc ++ [c]) rest (fun c' hc' => h c' (by simp [hc']))]
    simp

theorem join_with_spaces_append :
    ∀ (a b : List (List Char)), a ≠ [] → b ≠ [] →
      join_with_spaces (a ++ b) =
        join_with_spaces a ++ [' '] ++ join_with_spaces b := by
  intro a
  induction a with
  | nil => intro b h _; exact absurd rfl h
  | cons x a' ih =>
    intro b _ hb
    cases a' with
    | nil =>
      cases b with
      | nil => exact absurd rfl hb
      | cons y b' => simp [join_with_spaces]
    | cons x' a'' =>
      have h2 : join_with_spaces ((x :: x' :: a'') ++ b) =
          x ++ [' '] ++ join_with_spaces ((x' :: a'') ++ b) := rfl
      have h3 : join_with_spaces (x :: x' :: a'') =
          x ++ [' '] ++ join_with_spaces (x' :: a'') := rfl
      rw [h2, ih b (by simp) hb, h3]
      simp


theorem split_whitespace_join_with_spaces :
    ∀ (ws : List (List Char)),
      (∀ w ∈ ws, w ≠ [] ∧ ∀ c ∈ w, is_whitespace c = false) →
      split_whitespace (join_with_spaces ws) = ws := by
  intro ws
  induction ws with
  | nil => intro _; rfl
  | cons w ws' ih =>
    intro h
    have hw := h w (by simp)
    cases ws' with
    | nil =>
      show split_whitespace_aux [] (join_with_spaces [w]) = [w]
      have : join_with_spaces [w] = w ++ [] := by simp [join_with_spaces]
      rw [this, split_whitespace_aux_word_prefix w [] [] hw.2]
      simp only [List.nil_append, split_whitespace_aux]
      rw [if_neg (by simpa using hw.1)]
    | cons w' ws'' =>
      have hj : join_with_spaces (w :: w' :: ws'') =
          w ++ (' ' :: join_with_spaces (w' :: ws'')) := by
        show w ++ [' '] ++ join_with_spaces (w' :: ws'') = _
        simp
      show split_whitespace_aux [] (join_with_spaces (w :: w' :: ws'')) = _
      rw [hj, split_whitespace_aux_word_prefix w [] _ hw.2]
      simp only [List.nil_append, split_whitespace_aux]
      rw [if_pos (by rfl)]
      rw [if_neg (by simpa using hw.1)]
      have ih' := ih fun x hx => h x (by simp [hx])
      rw [show split_whitespace_aux [] (join_with_spaces (w' :: ws'')) =
            split_whitespace (join_with_spaces (w' :: ws'')) from rfl, ih']

theorem join_with_spaces_flatten :
    ∀ (groups : List (List (List Char))), (∀ g ∈ groups, g ≠ []) →
      join_with_spaces (groups.map join_with_spaces) =
        join_with_spaces groups.flatten := by
  intro groups
  induction groups with
  | nil => intro _; rfl
  | cons g groups' ih =>
    intro h
    cases groups' with
    | nil => simp [join_with_spaces]
    | cons g' groups'' =>
      have hg : g ≠ [] := h g (by simp)
      have hflat : (g' :: groups'').flatten ≠ [] := by
        have hg' : g' ≠ [] := h g' (by simp)
        cases g' with
        | nil => exact absurd rfl hg'
        | cons x xs => simp
      have h2 : join_with_spaces
          ((g :: g' :: groups'').map join_with_spaces) =
          join_with_spaces g ++ [' '] ++
            join_with_spaces ((g' :: groups'').map join_with_spaces) := rfl
      rw [h2, ih fun x hx => h x (by simp [hx])]
      have h3 : (g :: g' :: groups'').flatten =
          g ++ (g' :: groups'').flatten := rfl
      rw [h3, join_with_spaces_append g (g' :: groups'').flatten hg hflat]

theorem wrap_word_loop_nil_push (cw : Char → Nat) (mw : Nat)
    (lines : List (List Char)) (cur : List Char) (w : Nat)
    (hcur : cur ≠ []) :
    wrap_word_loop cw mw [] lines cur w = lines ++ [cur] := by
  cases cur with
  | nil => exact absurd rfl hcur
  | cons c cs => cases lines <;> simp [wrap_word_loop]

theorem strWidth_headI_le_join (cw : Char → Nat) :
    ∀ (g : List (List Char)), g ≠ [] →
      strWidth cw g.headI ≤ strWidth cw (join_with_spaces g) := by
  intro g hg
  cases g with
  | nil => exact absurd rfl hg
  | cons w g' =>
    cases g' with
    | nil => simp [join_with_spaces]
    | cons w' g'' =>
      have h2 : join_with_spaces (w :: w' :: g'') =
          w ++ [' '] ++ join_with_spaces (w' :: g'') := rfl
      rw [h2, strWidth_append, strWidth_append]
      show strWidth cw w ≤ _
      omega

theorem join_with_spaces_ne_nil :
    ∀ (g : List (List Char)), g ≠ [] → g.headI ≠ [] →
      join_with_spaces g ≠ [] := by
  intro g hg hh
  cases g with
  | nil => exact absurd rfl hg
  | cons w g' =>
    cases g' with
    | nil => exact hh
    | cons w' g'' =>
      show w ++ [' '] ++ join_with_spaces (w' :: g'') ≠ []
      simp

theorem headI_append_singleton (g : List (List Char)) (w : List Char)
    (hg : g ≠ []) : (g ++ [w]).headI = g.headI := by
  cases g with
  | nil => exact absurd rfl hg
  | cons a t => rfl

theorem join_with_spaces_merge (cur w : List Char) :
    ∀ (t : List (List Char)),
      join_with_spaces ((cur ++ [' '] ++ w) :: t) =
        cur ++ [' '] ++ join_with_spaces (w :: t) := by
  intro t
  cases t with
  | nil => rfl
  | cons t0 ts =>
    show (cur ++ [' '] ++ w) ++ [' '] ++ join_with_spaces (t0 :: ts) = _
    have : join_with_spaces (w :: t0 :: ts) =
        w ++ [' '] ++ join_with_spaces (t0 :: ts) := rfl
    rw [this]
    simp

theorem strWidth_join_with_spaces_cons (cw : Char → Nat)
    (hsp : cw ' ' = 1) (w : List Char) (t : List (List Char))
    (ht : t ≠ []) :
    strWidth cw (join_with_spaces (w :: t)) =
      strWidth cw w + 1 + strWidth cw (join_with_spaces t) := by
  cases t with
  | nil => exact absurd rfl ht
  | cons t0 ts =>
    show strWidth cw (w ++ [' '] ++ join_with_spaces (t0 :: ts)) = _
    rw [strWidth_append, strWidth_append, strWidth_cons, strWidth_nil, hsp]

/-- Extending the accumulator through the remaining words of one group:
with the whole joined group fitting the wrap width and a positive
accumulated width, every word of the group tail is appended (the combined
guard `current_width + 1 + word_width ≤ max_width` holds because the group
total already fits), so the loop reaches the end of the group with the
fully joined line as its accumulator. -/
theorem wrap_word_loop_fill (cw : Char → Nat) (mw : Nat)
    (hsp : cw ' ' = 1) :
    ∀ (gtail : List (List Char)) (cur : List Char)
      (restWords lines : List (List Char)),
      0 < strWidth cw cur →
      strWidth cw (join_with_spaces (cur :: gtail)) ≤ mw →
      wrap_word_loop cw mw (gtail ++ restWords) lines cur
          (strWidth cw cur) =
        wrap_word_loop cw mw restWords lines
          (join_with_spaces (cur :: gtail))
          (strWidth cw (join_with_spaces (cur :: gtail))) := by
  intro gtail
  induction gtail with
  | nil =>
    intro cur restWords lines _ _
    rfl
  | cons w gt' ih =>
    intro cur restWords lines hpos hle
    have hjcons : strWidth cw (join_with_spaces (cur :: w :: gt')) =
        strWidth cw cur + 1 + strWidth cw (join_with_spaces (w :: gt')) :=
      strWidth_join_with_spaces_cons cw hsp cur (w :: gt') (by simp)
    have hwle : strWidth cw w ≤
        strWidth cw (join_with_spaces (w :: gt')) := by
      have := strWidth_headI_le_join cw (w :: gt') (by simp)
      simpa using this
    have hcw' : strWidth cw cur + 1 + strWidth cw w =
        strWidth cw (cur ++ [' '] ++ w) := by
      rw [strWidth_append, strWidth_append, strWidth_cons, strWidth_nil,
        hsp]
    have hfull : strWidth cw (cur ++ [' '] ++ join_with_spaces (w :: gt')) =
        strWidth cw cur + 1 + strWidth cw (join_with_spaces (w :: gt')) := by
      rw [strWidth_append, strWidth_append, strWidth_cons, strWidth_nil,
        hsp]
    have hih := ih (cur ++ [' '] ++ w) restWords lines (by omega)
      (by rw [join_with_spaces_merge]; omega)
    show wrap_word_loop cw mw (w :: (gt' ++ restWords)) lines cur
        (strWidth cw cur) = _
    simp only [wrap_word_loop]
    rw [if_neg (by omega), if_pos (by omega), hcw', hih,
      join_with_spaces_merge]
    rfl

/-- Replaying the loop over the flattened group list reproduces the lines:
each group's first word starts the accumulator, `wrap_word_loop_fill`
absorbs the rest of the group, and the break invariant closes the line at
exactly the original boundary. -/
theorem wrap_word_loop_replay (cw : Char → Nat) (mw : Nat)
    (hsp : cw ' ' = 1) :
    ∀ (rest : List (List (List Char))) (w0 : List Char)
      (gtail : List (List Char)) (lines : List (List Char)),
      wordGroupOK cw mw (w0 :: gtail) →
      (∀ g' ∈ rest, wordGroupOK cw mw g') →
      List.Chain' (groupBreakOK cw mw) ((w0 :: gtail) :: rest) →
      wrap_word_loop cw mw (gtail ++ rest.flatten) lines w0
          (strWidth cw w0) =
        lines ++ ((w0 :: gtail) :: rest).map join_with_spaces := by
  intro rest
  induction rest with
  | nil =>
    intro w0 gtail lines hg _ _
    obtain ⟨_, hgw, hgle, hgsing⟩ := hg
    have hE : wrap_word_loop cw mw (gtail ++ ([] : List _).flatten) lines
        w0 (strWidth cw w0) =
        wrap_word_loop cw mw [] lines (join_with_spaces (w0 :: gtail))
          (strWidth cw (join_with_spaces (w0 :: gtail))) := by
      by_cases hz : strWidth cw w0 = 0
      · have hsing : (w0 :: gtail) = [w0] := hgsing hz
        have hgt : gtail = [] := by
          injection hsing
        subst hgt
        rfl
      · exact wrap_word_loop_fill cw mw hsp gtail w0 _ lines
          (by omega) hgle
    rw [hE, wrap_word_loop_nil_push cw mw lines _ _
      (join_with_spaces_ne_nil (w0 :: gtail) (by simp)
        (hgw w0 (by simp)).1)]
    simp
  | cons g2 rest2 ih =>
    intro w0 gtail lines hg hgs hchain
    obtain ⟨_, hgw, hgle, hgsing⟩ := hg
    have hg2 := hgs g2 (by simp)
    obtain ⟨w20, gtail2, rfl⟩ : ∃ a t, g2 = a :: t := by
      cases g2 with
      | nil => exact absurd rfl hg2.1
      | cons a t => exact ⟨a, t, rfl⟩
    obtain ⟨⟨hpos1, hbreak⟩, hchainrest⟩ := List.chain'_cons.mp hchain
    have hE : wrap_word_loop cw mw
        (gtail ++ ((w20 :: gtail2) :: rest2).flatten) lines w0
        (strWidth cw w0) =
        wrap_word_loop cw mw ((w20 :: gtail2) :: rest2).flatten lines
          (join_with_spaces (w0 :: gtail))
          (strWidth cw (join_with_spaces (w0 :: gtail))) := by
      by_cases hz : strWidth cw w0 = 0
      · have hsing : (w0 :: gtail) = [w0] := hgsing hz
        have hgt : gtail = [] := by
          injection hsing
        subst hgt
        rfl
      · exact wrap_word_loop_fill cw mw hsp gtail w0 _ lines
          (by omega) hgle
    rw [hE]
    have hflat : ((w20 :: gtail2) :: rest2).flatten =
        w20 :: (gtail2 ++ rest2.flatten) := by simp
    rw [hflat]
    simp only [wrap_word_loop]
    rw [if_neg (by omega)]
    have hbreak' : mw < strWidth cw (join_with_spaces (w0 :: gtail)) + 1 +
        strWidth cw w20 := hbreak
    rw [if_neg (by omega),
      if_pos ((hg2.2.1 w20 (by simp)).2.2)]
    rw [ih w20 gtail2 (lines ++ [join_with_spaces (w0 :: gtail)]) hg2
      (fun g' hg' => hgs g' (by simp [hg'])) hchainrest]
    simp

/-- The loop on the flattened group list, started from the empty state,
emits exactly the joined groups. -/
theorem wrap_word_loop_replay_all (cw : Char → Nat) (mw : Nat)
    (hsp : cw ' ' = 1) (groups : List (List (List Char)))
    (hne : groups ≠ []) (hgp : ∀ g ∈ groups, wordGroupOK cw mw g)
    (hchain : List.Chain' (groupBreakOK cw mw) groups) :
    wrap_word_loop cw mw groups.flatten [] [] 0 =
      groups.map join_with_spaces := by
  obtain ⟨g, rest, rfl⟩ : ∃ a t, groups = a :: t := by
    cases groups with
    | nil => exact absurd rfl hne
    | cons a t => exact ⟨a, t, rfl⟩
  have hgO := hgp g (by simp)
  obtain ⟨w0, gtail, rfl⟩ : ∃ a t, g = a :: t := by
    cases g with
    | nil => exact absurd rfl hgO.1
    | cons a t => exact ⟨a, t, rfl⟩
  have hflat : ((w0 :: gtail) :: rest).flatten =
      w0 :: (gtail ++ rest.flatten) := by simp
  rw [hflat]
  simp only [wrap_word_loop, if_true]
  rw [if_pos ((hgO.2.1 w0 (by simp)).2.2)]
  rw [wrap_word_loop_replay cw mw hsp rest w0 gtail [] hgO
    (fun g' hg' => hgp g' (by simp [hg'])) hchain]
  simp

/-- Running the word loop under the proviso that every word fits the wrap
width produces a list of groups satisfying the group and break invariants.
Zero-width words need no special proviso: a zero-width accumulator is
either overwritten (the word disappears from the output and hence also
from the re-joined text) or survives only as the final line, and a line
closed by a zero-width arrival has width exactly the wrap width, so the
break invariant carries over to whichever word finally starts the next
line. -/
theorem wrap_word_loop_build (cw : Char → Nat) (mw : Nat)
    (hsp : cw ' ' = 1) :
    ∀ (ws : List (List Char)) (gs : List (List (List Char)))
      (g : List (List Char)),
      (∀ w ∈ ws, w ≠ [] ∧ (∀ c ∈ w, is_whitespace c = false) ∧
        strWidth cw w ≤ mw) →
      (∀ g' ∈ gs, wordGroupOK cw mw g') →
      (g ≠ [] → wordGroupOK cw mw g) →
      (g = [] → gs = []) →
      (g ≠ [] → List.Chain' (groupBreakOK cw mw) (gs ++ [g])) →
      ¬(ws = [] ∧ g = []) →
      ∃ groups,
        wrap_word_loop cw mw ws (gs.map join_with_spaces)
            (join_with_spaces g) (strWidth cw (join_with_spaces g)) =
          groups.map join_with_spaces ∧
        groups ≠ [] ∧
        (∀ g' ∈ groups, wordGroupOK cw mw g') ∧
        List.Chain' (groupBreakOK cw mw) groups := by
  intro ws
  induction ws with
  | nil =>
    intro gs g hws hgs hgO hemp hchain hne
    have hgnil : g ≠ [] := fun h => hne ⟨rfl, h⟩
    have hO := hgO hgnil
    refine ⟨gs ++ [g], ?_, by simp, ?_, hchain hgnil⟩
    · rw [wrap_word_loop_nil_push cw mw _ _ _
        (join_with_spaces_ne_nil g hgnil ?_)]
      · simp
      · obtain ⟨a, t, rfl⟩ : ∃ a t, g = a :: t := by
          cases g with
          | nil => exact absurd rfl hgnil
          | cons a t => exact ⟨a, t, rfl⟩
        exact (hO.2.1 a (by simp)).1
    · intro g' hg'
      rcases List.mem_append.mp hg' with h' | h'
      · exact hgs g' h'
      · simp only [List.mem_singleton] at h'
        subst h'
        exact hO
  | cons w ws' ih =>
    intro gs g hws hgs hgO hemp hchain hne
    obtain ⟨hwne, hwns, hwle⟩ := hws w (by simp)
    have hws' : ∀ w' ∈ ws', w' ≠ [] ∧
        (∀ c ∈ w', is_whitespace c = false) ∧ strWidth cw w' ≤ mw :=
      fun w' h => hws w' (by simp [h])
    have hwGP : wordGroupOK cw mw [w] := by
      refine ⟨by simp, ?_, ?_, fun _ => rfl⟩
      · intro w' hw'
        simp only [List.mem_singleton] at hw'
        subst hw'
        exact ⟨hwne, hwns, hwle⟩
      · show strWidth cw (join_with_spaces [w]) ≤ mw
        exact hwle
    by_cases hz : strWidth cw (join_with_spaces g) = 0
    · -- the accumulator is empty or a zero-width word: it is overwritten
      simp only [wrap_word_loop]
      rw [if_pos hz, if_pos hwle]
      have hchain' : ([w] : List (List Char)) ≠ [] →
          List.Chain' (groupBreakOK cw mw) (gs ++ [[w]]) := by
        intro _
        by_cases hgnil : g = []
        · rw [hemp hgnil]
          simp
        · by_cases hgse : gs = []
          · subst hgse
            simp
          · have hch := hchain hgnil
            rw [List.chain'_append] at hch
            rw [List.chain'_append]
            refine ⟨hch.1, by simp, ?_⟩
            intro x hx y hy
            simp only [List.head?_cons, Option.mem_def,
              Option.some.injEq] at hy
            subst hy
            have hold := hch.2.2 x hx g (by simp)
            obtain ⟨hp, hb⟩ := hold
            have hhead0 : strWidth cw g.headI = 0 := by
              have := strWidth_headI_le_join cw g hgnil
              omega
            refine ⟨hp, ?_⟩
            show mw < strWidth cw (join_with_spaces x) + 1 +
              strWidth cw ([w] : List (List Char)).headI
            show mw < strWidth cw (join_with_spaces x) + 1 + strWidth cw w
            omega
      have := ih gs [w] hws' hgs (fun _ => hwGP)
        (fun h => absurd h (by simp)) hchain' (by simp)
      exact this
    · have hgne : g ≠ [] := by
        intro h
        subst h
        exact hz rfl
      have hO := hgO hgne
      simp only [wrap_word_loop]
      rw [if_neg hz]
      by_cases hfits :
          strWidth cw (join_with_spaces g) + 1 + strWidth cw w ≤ mw
      · rw [if_pos hfits]
        have hjapp : join_with_spaces g ++ [' '] ++ w =
            join_with_spaces (g ++ [w]) := by
          rw [join_with_spaces_append g [w] hgne (by simp)]
          rfl
        have hwapp :
            strWidth cw (join_with_spaces g) + 1 + strWidth cw w =
              strWidth cw (join_with_spaces (g ++ [w])) := by
          rw [← hjapp, strWidth_append, strWidth_append, strWidth_cons,
            strWidth_nil, hsp]
        rw [hjapp, hwapp]
        refine ih gs (g ++ [w]) hws' hgs ?_
          (fun h => absurd h (by simp)) ?_ (by simp)
        · intro _
          refine ⟨by simp, ?_, by rw [← hwapp]; exact hfits, ?_⟩
          · intro w' hw'
            rcases List.mem_append.mp hw' with h' | h'
            · exact hO.2.1 w' h'
            · simp only [List.mem_singleton] at h'
              subst h'
              exact ⟨hwne, hwns, hwle⟩
          · intro hh
            rw [headI_append_singleton g w hgne] at hh
            have hgsing := hO.2.2.2 hh
            rw [hgsing] at hz
            exact absurd hh hz
        · intro _
          by_cases hgse : gs = []
          · subst hgse
            simp
          · have hch := hchain hgne
            rw [List.chain'_append] at hch
            rw [List.chain'_append]
            refine ⟨hch.1, by simp, ?_⟩
            intro x hx y hy
            simp only [List.head?_cons, Option.mem_def,
              Option.some.injEq] at hy
            subst hy
            obtain ⟨hp, hb⟩ := hch.2.2 x hx g (by simp)
            refine ⟨hp, ?_⟩
            show mw < strWidth cw (join_with_spaces x) + 1 +
              strWidth cw (g ++ [w]).headI
            rw [headI_append_singleton g w hgne]
            exact hb
      · rw [if_neg hfits, if_pos hwle]
        have hmap : gs.map join_with_spaces ++ [join_with_spaces g] =
            (gs ++ [g]).map join_with_spaces := by simp
        rw [hmap]
        refine ih (gs ++ [g]) [w] hws' ?_ (fun _ => hwGP)
          (fun h => absurd h (by simp)) ?_ (by simp)
        · intro g' hg'
          rcases List.mem_append.mp hg' with h' | h'
          · exact hgs g' h'
          · simp only [List.mem_singleton] at h'
            subst h'
            exact hO
        · intro _
          rw [List.chain'_append]
          refine ⟨hchain hgne, by simp, ?_⟩
          intro x hx y hy
          simp only [List.head?_cons, Option.mem_def,
            Option.some.injEq] at hy
          subst hy
          have hx' : x = g := by
            rw [List.getLast?_concat] at hx
            simp only [Option.mem_def, Option.some.injEq] at hx
            exact hx.symm
          rw [hx']
          refine ⟨by omega, ?_⟩
          show mw < strWidth cw (join_with_spaces g) + 1 + strWidth cw w
          omega

/-- C8 (amended): re-joining Word-wrapped lines with single spaces and
re-wrapping at the same width with policy Word yields the same line
sequence, provided every whitespace-separated word of the text has display
width at most the wrap width (so the character-split fallback for over-wide
words is not involved), where the space character measures one column.
Without the proviso the property fails. -/
theorem c8_word_wrap_idempotent (cw : Char → Nat) (text : List Char)
    (mw : Nat) (hsp : cw ' ' = 1)
    (hfit : ∀ w ∈ split_whitespace text, strWidth cw w ≤ mw) :
    wrap_text_word cw (join_with_spaces (wrap_text_word cw text mw)) mw =
      wrap_text_word cw text mw := by
  cases hsw : split_whitespace text with
  | nil =>
    have h1 : wrap_text_word cw text mw = [[]] := by
      show wrap_word_loop cw mw (split_whitespace text) [] [] 0 = [[]]
      rw [hsw]
      rfl
    rw [h1]
    rfl
  | cons w ws' =>
    have hprops := split_whitespace_word_props text
    rw [hsw] at hprops hfit
    have hwords : ∀ w' ∈ w :: ws', w' ≠ [] ∧
        (∀ c ∈ w', is_whitespace c = false) ∧ strWidth cw w' ≤ mw :=
      fun w' h => ⟨(hprops w' h).1, (hprops w' h).2, hfit w' h⟩
    obtain ⟨groups, hout, hne, hGP, hchain⟩ :=
      wrap_word_loop_build cw mw hsp (w :: ws') [] [] hwords (by simp)
        (fun h => absurd rfl h) (fun _ => rfl) (fun h => absurd rfl h)
        (by simp)
    have hout' : wrap_text_word cw text mw =
        groups.map join_with_spaces := by
      show wrap_word_loop cw mw (split_whitespace text) [] [] 0 = _
      rw [hsw]
      exact hout
    have hwordsflat : ∀ w' ∈ groups.flatten,
        w' ≠ [] ∧ ∀ c ∈ w', is_whitespace c = false := by
      intro w' hw'
      obtain ⟨g', hg', hw''⟩ := List.mem_flatten.mp hw'
      obtain ⟨_, hgw, _, _⟩ := hGP g' hg'
      exact ⟨(hgw w' hw'').1, (hgw w' hw'').2.1⟩
    have hgne : ∀ g' ∈ groups, g' ≠ [] := fun g' h => (hGP g' h).1
    rw [hout']
    show wrap_word_loop cw mw
      (split_whitespace (join_with_spaces (groups.map join_with_spaces)))
      [] [] 0 = groups.map join_with_spaces
    rw [join_with_spaces_flatten groups hgne,
      split_whitespace_join_with_spaces groups.flatten hwordsflat]
    exact wrap_word_loop_replay_all cw mw hsp groups hne hGP hchain

/-- Witness for `c8_word_wrap_idempotent`: `'z'` measures zero columns and
every other character one; text `"ab z"` at width 2 puts the zero-width
word `"z"` alone on the final line, and re-wrapping reproduces it. -/
theorem c8_word_wrap_idempotent_witness :
    ((fun c : Char => if c = 'z' then 0 else 1) ' ' = 1 ∧
        ∀ w ∈ split_whitespace "ab z".toList,
          strWidth (fun c => if c = 'z' then 0 else 1) w ≤ 2) ∧
      wrap_text_word (fun c : Char => if c = 'z' then 0 else 1)
          (join_with_spaces (wrap_text_word
            (fun c : Char => if c = 'z' then 0 else 1) "ab z".toList 2))
          2 =
        wrap_text_word (fun c : Char => if c = 'z' then 0 else 1)
          "ab z".toList 2 :=
  ⟨⟨by decide, by decide⟩,
    c8_word_wrap_idempotent (fun c : Char => if c = 'z' then 0 else 1)
      "ab z".toList 2 (by decide) (by decide)⟩

/-! ## Waterfall allocation: first pass -/

theorem sum_replicate_zero : ∀ n : Nat, (List.replicate n 0).sum = 0 := by
  intro n
  induction n with
  | zero => rfl
  | succ m ih => simp [ih]

/-- Full characterisation of the first waterfall pass: it processes a prefix
`pre` of the sorted column list, granting each of its columns its natural
width (fresh zero slots, distinct indices), spends exactly the sum of those
natural widths out of the budget, and leaves the suffix untouched at
width 0. -/
theorem waterfall_phase1_spec :
    ∀ (l : List (Nat × Nat)) (widths : List Nat) (rem unalloc : Nat)
      (out : Phase1Out),
      waterfall_phase1 l widths rem unalloc = out →
      (∀ p ∈ l, p.1 < widths.length ∧ widths.getD p.1 0 = 0) →
      (l.map Prod.fst).Nodup →
      l.length ≤ unalloc →
      ∃ pre : List (Nat × Nat),
        l = pre ++ out.rest ∧
        out.widths.length = widths.length ∧
        out.widths.sum = widths.sum + (pre.map Prod.snd).sum ∧
        (pre.map Prod.snd).sum ≤ rem ∧
        out.remaining = rem - (pre.map Prod.snd).sum ∧
        out.unalloc + pre.length = unalloc ∧
        (∀ p ∈ out.rest, out.widths.getD p.1 0 = 0) ∧
        (∀ p ∈ pre, out.widths.getD p.1 0 = p.2) ∧
        (∀ j, j ∉ l.map Prod.fst →
          out.widths.getD j 0 = widths.getD j 0) := by
  intro l
  induction l with
  | nil =>
    intro widths rem unalloc out hout _ _ _
    rw [waterfall_phase1] at hout
    subst hout
    exact ⟨[], by simp, rfl, by simp, by simp, by simp, by simp, by simp,
      by simp, fun j _ => rfl⟩
  | cons hd tl ih =>
    intro widths rem unalloc out hout hzero hnodup hlen
    obtain ⟨i, n⟩ := hd
    have hi := hzero (i, n) (by simp)
    simp only [List.map_cons, List.nodup_cons] at hnodup
    by_cases h : n ≤ rem / unalloc
    · rw [waterfall_phase1, if_pos h] at hout
      have hzero' : ∀ p ∈ tl, p.1 < (widths.set i n).length ∧
          (widths.set i n).getD p.1 0 = 0 := by
        intro p hp
        have hpi : p.1 ≠ i := by
          intro he
          exact hnodup.1 (he ▸ List.mem_map_of_mem Prod.fst hp)
        refine ⟨by simpa using (hzero p (by simp [hp])).1, ?_⟩
        rw [getD_set_ne widths i p.1 n (fun he => hpi he.symm)]
        exact (hzero p (by simp [hp])).2
      obtain ⟨pre', h1, h2, h3, h4, h5, h6, h7, h8, h9⟩ :=
        ih (widths.set i n) (rem - n) (unalloc - 1) out hout hzero'
          hnodup.2 (by simp at hlen; omega)
      have hsetsum : (widths.set i n).sum = widths.sum + n := by
        have := sum_set_getD widths i n hi.1
        rw [hi.2] at this
        omega
      have hnrem : n ≤ rem := le_trans h (Nat.div_le_self rem unalloc)
      refine ⟨(i, n) :: pre', by simp [h1], by simpa using h2, ?_, ?_, ?_,
        ?_, h7, ?_, ?_⟩
      · rw [h3, hsetsum]
        simp
        omega
      · simp only [List.map_cons, List.sum_cons]
        omega
      · rw [h5]
        simp only [List.map_cons, List.sum_cons]
        omega
      · simp only [List.length_cons]
        simp only [List.length_cons] at hlen
        omega
      · intro p hp
        rcases List.mem_cons.mp hp with hp | hp
        · subst hp
          have : out.widths.getD i 0 = (widths.set i n).getD i 0 :=
            h9 i hnodup.1
          rw [this, getD_set_self widths i n hi.1]
        · exact h8 p hp
      · intro j hj
        simp only [List.map_cons, List.mem_cons] at hj
        push_neg at hj
        rw [h9 j hj.2, getD_set_ne widths i j n (fun he => hj.1 he.symm)]
    · rw [waterfall_phase1, if_neg h] at hout
      subst hout
      exact ⟨[], by simp, rfl, by simp, by simp, by simp, by simp,
        fun p hp => (hzero p hp).2, by simp, fun j _ => rfl⟩

/-! ## Waterfall allocation: second pass -/

/-- With no unallocated columns left, the proportional pass either
underflows (on a width-0 entry) or leaves the widths unchanged. -/
theorem waterfall_phase2_zero_unalloc (rem unat pcm : Nat) :
    ∀ (l : List (Nat × Nat)) (widths : List Nat) (leftover : Nat)
      (ws : List Nat),
      waterfall_phase2 rem unat pcm l widths 0 leftover = some ws →
      ws = widths := by
  intro l
  induction l with
  | nil =>
    intro widths leftover ws h
    rw [waterfall_phase2] at h
    exact (Option.some.inj h).symm
  | cons hd tl ih =>
    intro widths leftover ws h
    obtain ⟨j, n⟩ := hd
    rw [waterfall_phase2] at h
    by_cases hz : widths.getD j 0 = 0
    · rw [if_pos hz] at h
      simp at h
    · rw [if_neg hz] at h
      exact ih widths leftover ws h

/-- The proportional pass never modifies a column that already has a
non-zero width. -/
theorem waterfall_phase2_preserve (rem unat pcm : Nat) :
    ∀ (l : List (Nat × Nat)) (widths : List Nat) (unalloc leftover : Nat)
      (ws : List Nat),
      waterfall_phase2 rem unat pcm l widths unalloc leftover = some ws →
      ∀ i, widths.getD i 0 ≠ 0 → ws.getD i 0 = widths.getD i 0 := by
  intro l
  induction l with
  | nil =>
    intro widths unalloc leftover ws h i _
    cases unalloc <;>
      (rw [waterfall_phase2] at h; rw [(Option.some.inj h).symm])
  | cons hd tl ih =>
    intro widths unalloc leftover ws h i hi
    obtain ⟨j, n⟩ := hd
    cases unalloc with
    | zero =>
      rw [waterfall_phase2] at h
      by_cases hz : widths.getD j 0 = 0
      · rw [if_pos hz] at h
        simp at h
      · rw [if_neg hz] at h
        exact ih widths 0 leftover ws h i hi
    | succ u =>
      rw [waterfall_phase2] at h
      by_cases hz : widths.getD j 0 = 0
      · rw [if_pos hz] at h
        have hij : i ≠ j := fun he => hi (he ▸ hz)
        have hset : ∀ (v lo' : Nat),
            waterfall_phase2 rem unat pcm tl (widths.set j v) u lo' =
              some ws →
            ws.getD i 0 = widths.getD i 0 := by
          intro v lo' h'
          have hne : (widths.set j v).getD i 0 ≠ 0 := by
            rw [getD_set_ne widths j i v (fun he => hij he.symm)]
            exact hi
          rw [ih (widths.set j v) u lo' ws h' i hne,
            getD_set_ne widths j i v (fun he => hij he.symm)]
        by_cases hu : u = 0
        · rw [if_pos hu] at h
          exact hset _ _ h
        · rw [if_neg hu] at h
          by_cases hnat : 0 < unat
          · rw [if_pos hnat] at h
            exact hset _ _ h
          · rw [if_neg hnat] at h
            exact hset _ _ h
      · rw [if_neg hz] at h
        exact ih widths (u + 1) leftover ws h i hi

/-- Every column the proportional pass reaches ends at width ≥ 5, or keeps
its already-assigned non-zero width. -/
theorem waterfall_phase2_min5 (rem unat pcm : Nat) :
    ∀ (l : List (Nat × Nat)) (widths : List Nat) (unalloc leftover : Nat)
      (ws : List Nat),
      waterfall_phase2 rem unat pcm l widths unalloc leftover = some ws →
      ∀ p ∈ l, p.1 < widths.length →
        5 ≤ ws.getD p.1 0 ∨
          (ws.getD p.1 0 = widths.getD p.1 0 ∧ widths.getD p.1 0 ≠ 0) := by
  intro l
  induction l with
  | nil =>
    intro widths unalloc leftover ws _ p hp
    simp at hp
  | cons hd tl ih =>
    intro widths unalloc leftover ws h p hp hplen
    obtain ⟨j, n⟩ := hd
    cases unalloc with
    | zero =>
      rw [waterfall_phase2] at h
      by_cases hz : widths.getD j 0 = 0
      · rw [if_pos hz] at h
        simp at h
      · rw [if_neg hz] at h
        rcases List.mem_cons.mp hp with hp' | hp'
        · subst hp'
          right
          exact ⟨waterfall_phase2_preserve rem unat pcm tl widths 0
            leftover ws h j hz, hz⟩
        · exact ih widths 0 leftover ws h p hp' hplen
    | succ u =>
      rw [waterfall_phase2] at h
      by_cases hz : widths.getD j 0 = 0
      · rw [if_pos hz] at h
        have hset : ∀ (v lo' : Nat), 5 ≤ v →
            waterfall_phase2 rem unat pcm tl (widths.set j v) u lo' =
              some ws →
            5 ≤ ws.getD p.1 0 ∨
              (ws.getD p.1 0 = widths.getD p.1 0 ∧
                widths.getD p.1 0 ≠ 0) := by
          intro v lo' hv h'
          rcases List.mem_cons.mp hp with hp' | hp'
          · subst hp'
            left
            have hjv : (widths.set j v).getD j 0 = v :=
              getD_set_self widths j v hplen
            have := waterfall_phase2_preserve rem unat pcm tl
              (widths.set j v) u lo' ws h' j (by rw [hjv]; omega)
            rw [this, hjv]
            exact hv
          · have hlen' : p.1 < (widths.set j v).length := by
              simpa using hplen
            rcases ih (widths.set j v) u lo' ws h' p hp' hlen' with
              h5 | ⟨heq, hne⟩
            · left
              exact h5
            · by_cases hpj : p.1 = j
              · left
                rw [heq, hpj, getD_set_self widths j v (hpj ▸ hplen)]
                exact hv
              · right
                rw [heq, getD_set_ne widths j p.1 v (fun he => hpj he.symm)]
                rw [getD_set_ne widths j p.1 v (fun he => hpj he.symm)] at hne
                exact ⟨rfl, hne⟩
        by_cases hu : u = 0
        · rw [if_pos hu] at h
          exact hset _ _ (Nat.le_max_right _ 5) h
        · rw [if_neg hu] at h
          by_cases hnat : 0 < unat
          · rw [if_pos hnat] at h
            exact hset _ _ (Nat.le_max_right _ 5) h
          · rw [if_neg hnat] at h
            exact hset _ _ (Nat.le_max_right _ 5) h
      · rw [if_neg hz] at h
        rcases List.mem_cons.mp hp with hp' | hp'
        · subst hp'
          right
          exact ⟨waterfall_phase2_preserve rem unat pcm tl widths (u + 1)
            leftover ws h j hz, hz⟩
        · exact ih widths (u + 1) leftover ws h p hp' hplen

/-- Budget bookkeeping of the proportional pass: when at least one column is
still unallocated and enough zero slots remain, the resulting total width is
at least the widths already assigned plus the whole leftover budget (the
last zero column absorbs `max leftover 5 ≥ leftover`). -/
theorem waterfall_phase2_sum (rem unat pcm : Nat) :
    ∀ (l : List (Nat × Nat)) (widths : List Nat) (unalloc leftover : Nat)
      (ws : List Nat),
      waterfall_phase2 rem unat pcm l widths unalloc leftover = some ws →
      (∀ p ∈ l, p.1 < widths.length) →
      (l.map Prod.fst).Nodup →
      0 < unalloc →
      unalloc ≤ (l.filter (fun p => widths.getD p.1 0 = 0)).length →
      widths.sum + leftover ≤ ws.sum := by
  intro l
  induction l with
  | nil =>
    intro widths unalloc leftover ws _ _ _ hpos hcount
    simp at hcount
    omega
  | cons hd tl ih =>
    intro widths unalloc leftover ws h hlen hnodup hpos hcount
    obtain ⟨j, n⟩ := hd
    have hjlen : j < widths.length := hlen (j, n) (by simp)
    simp only [List.map_cons, List.nodup_cons] at hnodup
    by_cases hz : widths.getD j 0 = 0
    · cases unalloc with
      | zero => omega
      | succ u =>
        rw [waterfall_phase2, if_pos hz] at h
        have hcount' : u ≤
            (tl.filter (fun p => widths.getD p.1 0 = 0)).length := by
          have heq : ((j, n) :: tl).filter
              (fun p => widths.getD p.1 0 = 0) =
              (j, n) :: tl.filter (fun p => widths.getD p.1 0 = 0) :=
            List.filter_cons_of_pos (by
              show decide (widths.getD j 0 = 0) = true
              exact decide_eq_true hz)
          rw [heq] at hcount
          simp only [List.length_cons] at hcount
          omega
        have hfiltereq : ∀ v : Nat,
            tl.filter (fun p => (widths.set j v).getD p.1 0 = 0) =
              tl.filter (fun p => widths.getD p.1 0 = 0) := by
          intro v
          apply List.filter_congr
          intro p hp
          have hpj : p.1 ≠ j := fun he =>
            hnodup.1 (he ▸ List.mem_map_of_mem Prod.fst hp)
          rw [getD_set_ne widths j p.1 v (fun he => hpj he.symm)]
        by_cases hu : u = 0
        · rw [if_pos hu] at h
          subst hu
          have hws := waterfall_phase2_zero_unalloc rem unat pcm tl _ _ _ h
          subst hws
          have hsum := sum_set_getD widths j (max leftover 5) hjlen
          rw [hz] at hsum
          have hmax : leftover ≤ max leftover 5 := Nat.le_max_left _ _
          omega
        · have key : ∀ v : Nat,
              waterfall_phase2 rem unat pcm tl (widths.set j v) u
                (leftover - v) = some ws →
              widths.sum + leftover ≤ ws.sum := by
            intro v h'
            have hsum' := ih (widths.set j v) u (leftover - v) ws h'
              (fun p hp => by simpa using hlen p (by simp [hp]))
              hnodup.2 (by omega) (by rw [hfiltereq v]; omega)
            have hsum := sum_set_getD widths j v hjlen
            rw [hz] at hsum
            omega
          rw [if_neg hu] at h
          by_cases hnat : 0 < unat
          · rw [if_pos hnat] at h
            exact key _ h
          · rw [if_neg hnat] at h
            exact key _ h
    · have hfeq : ((j, n) :: tl).filter
          (fun p => widths.getD p.1 0 = 0) =
          tl.filter (fun p => widths.getD p.1 0 = 0) :=
        List.filter_cons_of_neg (by
          show ¬decide (widths.getD j 0 = 0) = true
          simpa using hz)
      rw [hfeq] at hcount
      cases unalloc with
      | zero => omega
      | succ u =>
        rw [waterfall_phase2, if_neg hz] at h
        exact ih widths (u + 1) leftover ws h
          (fun p hp => hlen p (by simp [hp])) hnodup.2 hpos hcount

/-! ## Facts about the sorted column list -/

theorem sorted_cols_perm (nws : List Nat) :
    (nws.enum.insertionSort (fun a b => a.2 ≤ b.2)).Perm nws.enum :=
  List.perm_insertionSort _ _

theorem sorted_cols_mem (nws : List Nat) :
    ∀ p ∈ nws.enum.insertionSort (fun a b => a.2 ≤ b.2),
      p.1 < nws.length ∧ nws.getD p.1 0 = p.2 := by
  intro p hp
  have hp' : p ∈ nws.enum := (sorted_cols_perm nws).mem_iff.mp hp
  have hsome := List.mem_enum_iff_getElem?.mp hp'
  obtain ⟨h1, _⟩ := List.getElem?_eq_some_iff.mp hsome
  refine ⟨h1, ?_⟩
  rw [List.getD_eq_getElem?_getD, hsome]
  rfl

theorem sorted_cols_mem_self (nws : List Nat) (i : Nat)
    (h : i < nws.length) :
    (i, nws.getD i 0) ∈ nws.enum.insertionSort (fun a b => a.2 ≤ b.2) := by
  rw [(sorted_cols_perm nws).mem_iff, List.mem_enum_iff_getElem?]
  simp [List.getD_eq_getElem?_getD, List.getElem?_eq_getElem h]

theorem sorted_cols_nodup (nws : List Nat) :
    ((nws.enum.insertionSort (fun a b => a.2 ≤ b.2)).map
      Prod.fst).Nodup := by
  rw [((sorted_cols_perm nws).map Prod.fst).nodup_iff, List.enum_map_fst]
  exact List.nodup_range _

theorem sorted_cols_sum (nws : List Nat) :
    ((nws.enum.insertionSort (fun a b => a.2 ≤ b.2)).map
      Prod.snd).sum = nws.sum := by
  rw [((sorted_cols_perm nws).map Prod.snd).sum_eq, List.enum_map_snd]

theorem sorted_cols_length (nws : List Nat) :
    (nws.enum.insertionSort (fun a b => a.2 ≤ b.2)).length = nws.length := by
  rw [(sorted_cols_perm nws).length_eq, List.enum_length]

/-! ## The allocator claims -/

/-- C1 (amended): for natural widths whose sum exceeds the available width,
the sum of the widths the allocator returns is at least the available width
(it can strictly exceed it when the minimum-width floors overspend). -/
theorem c1_oversubscribed_sum_ge_available (nws : List Nat) (avail : Nat)
    (ws : List Nat) (hover : avail < nws.sum)
    (halloc : allocate_constrained nws avail = some ws) :
    avail ≤ ws.sum := by
  have h0 : ¬ nws.sum = 0 := by omega
  have hfits : ¬ nws.sum ≤ avail := by omega
  simp only [allocate_constrained] at halloc
  rw [if_neg h0, if_neg hfits] at halloc
  set sc := nws.enum.insertionSort (fun a b => a.2 ≤ b.2) with hsc
  set out := waterfall_phase1 sc (List.replicate nws.length 0) avail
    nws.length with hout
  obtain ⟨pre, h1, h2, h3, h4, h5, h6, h7, h8, h9⟩ :=
    waterfall_phase1_spec sc (List.replicate nws.length 0) avail nws.length
      out hout.symm
      (fun p hp =>
        ⟨by simpa using (sorted_cols_mem nws p (by rw [← hsc]; exact hp)).1,
          getD_replicate_zero _ _⟩)
      (by rw [hsc]; exact sorted_cols_nodup nws)
      (by rw [hsc, sorted_cols_length])
  have hsclen : sc.length = nws.length := by
    rw [hsc, sorted_cols_length]
  have hprerest : pre.length + out.rest.length = nws.length := by
    rw [← hsclen, h1]
    simp
  have hrepsum : (List.replicate nws.length 0).sum = 0 :=
    sum_replicate_zero nws.length
  by_cases hru : 0 < out.unalloc
  · rw [if_pos hru] at halloc
    have hle := waterfall_phase2_sum _ _ _ sc out.widths out.unalloc
      out.remaining ws halloc
      (fun p hp => by
        rw [h2]
        simpa using (sorted_cols_mem nws p (by rw [← hsc]; exact hp)).1)
      (by rw [hsc]; exact sorted_cols_nodup nws) hru ?_
    · omega
    · have hfilterrest : out.rest.filter
          (fun p => out.widths.getD p.1 0 = 0) = out.rest :=
        List.filter_eq_self.mpr fun p hp => decide_eq_true (h7 p hp)
      rw [h1, List.filter_append, List.length_append, hfilterrest]
      omega
  · rw [if_neg hru] at halloc
    have hws : ws = out.widths := (Option.some.inj halloc).symm
    have hrest : out.rest = [] := by
      have : out.rest.length = 0 := by omega
      exact List.length_eq_zero.mp this
    have hpre : pre = sc := by
      rw [h1, hrest, List.append_nil]
    have : ws.sum = nws.sum := by
      rw [hws, h3, hrepsum, hpre, hsc, sorted_cols_sum]
      omega
    omega

/-- Witness for `c1_oversubscribed_sum_ge_available`: naturals `[10, 10]`,
available width 1, result `[5, 5]`. -/
theorem c1_oversubscribed_sum_ge_available_witness :
    ((1 : Nat) < ([10, 10] : List Nat).sum ∧
        allocate_constrained [10, 10] 1 = some [5, 5]) ∧
      (1 : Nat) ≤ ([5, 5] : List Nat).sum :=
  ⟨⟨by decide, by decide⟩,
    c1_oversubscribed_sum_ge_available [10, 10] 1 [5, 5] (by decide)
      (by decide)⟩

/-- In the fits-naturally branch (positive total that fits the budget) the
allocator spends the budget exactly: the returned widths sum to the
available width. -/
theorem allocate_fits_sum (nws : List Nat) (avail : Nat)
    (hpos : 0 < nws.sum) (hfits : nws.sum ≤ avail) :
    ∃ ws, allocate_constrained nws avail = some ws ∧ ws.sum = avail := by
  simp only [allocate_constrained]
  rw [if_neg (by omega), if_pos hfits]
  by_cases hlt : nws.sum < avail
  · rw [if_pos hlt]
    refine ⟨_, rfl, ?_⟩
    have hlen : nws.length - 1 < nws.length := by
      cases nws with
      | nil => simp at hpos
      | cons a t => simp
    have := sum_set_getD nws (nws.length - 1)
      (nws.getD (nws.length - 1) 0 + (avail - nws.sum)) hlen
    omega
  · rw [if_neg hlt]
    exact ⟨nws, rfl, by omega⟩

/-- C4 (amended): in constrained mode with positive total natural width,
whenever the natural widths fit within the available content budget
(terminal width minus fixed overhead), the sum of the allocated widths plus
the overhead equals the terminal width exactly — in particular it never
exceeds it.  In the oversubscribed branch the total can exceed the terminal
width even when the budget covers the per-column minimums. -/
theorem c4_budget_fits (nws : List Nat) (terminal rowNumWidth : Nat)
    (hpos : 0 < nws.sum)
    (hhead : layout_overhead nws.length rowNumWidth ≤ terminal)
    (hfits : nws.sum ≤ terminal - layout_overhead nws.length rowNumWidth) :
    ∃ ws, calculate_column_widths_wrap nws terminal rowNumWidth = some ws ∧
      ws.sum + layout_overhead nws.length rowNumWidth = terminal := by
  obtain ⟨ws, h1, h2⟩ := allocate_fits_sum nws
    (terminal - layout_overhead nws.length rowNumWidth) hpos hfits
  exact ⟨ws, h1, by omega⟩

/-- Witness for `c4_budget_fits`: naturals `[3, 4]`, terminal width 30, no
row numbers. -/
theorem c4_budget_fits_witness :
    ((0 : Nat) < ([3, 4] : List Nat).sum ∧
        layout_overhead 2 0 ≤ 30 ∧
        ([3, 4] : List Nat).sum ≤ 30 - layout_overhead 2 0) ∧
      ∃ ws, calculate_column_widths_wrap [3, 4] 30 0 = some ws ∧
        ws.sum + layout_overhead 2 0 = 30 :=
  ⟨⟨by decide, by decide, by decide⟩,
    c4_budget_fits [3, 4] 30 0 (by decide) (by decide) (by decide)⟩

/-- C6 (amended): for natural widths with positive total that fit within
the available width, the allocator returns exactly the natural widths for
every column except the last, and the last column receives its natural
width plus all leftover budget.  (With total natural width 0 the uniform
fallback `[10, …]` is taken instead.) -/
theorem c6_fits_last_absorbs (nws : List Nat) (avail : Nat)
    (hne : nws ≠ []) (hpos : 0 < nws.sum) (hfits : nws.sum ≤ avail) :
    ∃ ws, allocate_constrained nws avail = some ws ∧
      (∀ i, i < nws.length - 1 → ws.getD i 0 = nws.getD i 0) ∧
      ws.getD (nws.length - 1) 0 =
        nws.getD (nws.length - 1) 0 + (avail - nws.sum) := by
  simp only [allocate_constrained]
  rw [if_neg (by omega), if_pos hfits]
  have hlen : nws.length - 1 < nws.length := by
    cases nws with
    | nil => exact absurd rfl hne
    | cons a t => simp
  by_cases hlt : nws.sum < avail
  · rw [if_pos hlt]
    refine ⟨_, rfl, ?_, ?_⟩
    · intro i hi
      exact getD_set_ne nws (nws.length - 1) i _ (by omega)
    · exact getD_set_self nws (nws.length - 1) _ hlen
  · rw [if_neg hlt]
    exact ⟨nws, rfl, fun i _ => rfl, by omega⟩

/-- Witness for `c6_fits_last_absorbs`: naturals `[3, 4]`, available
width 10. -/
theorem c6_fits_last_absorbs_witness :
    (([3, 4] : List Nat) ≠ [] ∧ (0 : Nat) < ([3, 4] : List Nat).sum ∧
        ([3, 4] : List Nat).sum ≤ 10) ∧
      ∃ ws, allocate_constrained [3, 4] 10 = some ws ∧
        (∀ i, i < ([3, 4] : List Nat).length - 1 →
          ws.getD i 0 = ([3, 4] : List Nat).getD i 0) ∧
        ws.getD (([3, 4] : List Nat).length - 1) 0 =
          ([3, 4] : List Nat).getD (([3, 4] : List Nat).length - 1) 0 +
            (10 - ([3, 4] : List Nat).sum) :=
  ⟨⟨by decide, by decide, by decide⟩,
    c6_fits_last_absorbs [3, 4] 10 (by decide) (by decide) (by decide)⟩

theorem getD_eq_zero_of_sum_eq_zero :
    ∀ (nws : List Nat), nws.sum = 0 → ∀ i : Nat, nws.getD i 0 = 0 := by
  intro nws
  induction nws with
  | nil => intro _ i; simp
  | cons a t ih =>
    intro h i
    simp only [List.sum_cons] at h
    cases i with
    | zero =>
      simp only [List.getD_cons_zero]
      omega
    | succ j =>
      simp only [List.getD_cons_succ]
      exact ih (by omega) j

/-- C3 (amended): in constrained mode, every width the allocator returns
for column `i` is at least `min(naturalWidth i, 5)`: columns granted their
natural width may be narrower than the minimum width 5
(the fits-naturally branch keeps them as they are), but a column is never
squeezed below both its
natural width and 5. -/
theorem c3_min_width (nws : List Nat) (avail : Nat) (ws : List Nat)
    (halloc : allocate_constrained nws avail = some ws) (i : Nat)
    (hi : i < nws.length) :
    min (nws.getD i 0) 5 ≤ ws.getD i 0 := by
  by_cases h0 : nws.sum = 0
  · rw [getD_eq_zero_of_sum_eq_zero nws h0 i]
    simp
  · by_cases hfits : nws.sum ≤ avail
    · simp only [allocate_constrained] at halloc
      rw [if_neg h0, if_pos hfits] at halloc
      by_cases hlt : nws.sum < avail
      · rw [if_pos hlt] at halloc
        have hws := (Option.some.inj halloc).symm
        subst hws
        by_cases hij : i = nws.length - 1
        · subst hij
          rw [getD_set_self nws _ _ (by omega)]
          have := Nat.min_le_left (nws.getD (nws.length - 1) 0) 5
          omega
        · rw [getD_set_ne nws _ i _ (fun he => hij he.symm)]
          exact Nat.min_le_left _ _
      · rw [if_neg hlt] at halloc
        rw [← Option.some.inj halloc]
        exact Nat.min_le_left _ _
    · simp only [allocate_constrained] at halloc
      rw [if_neg h0, if_neg hfits] at halloc
      set sc := nws.enum.insertionSort (fun a b => a.2 ≤ b.2) with hsc
      set out := waterfall_phase1 sc (List.replicate nws.length 0) avail
        nws.length with hout
      obtain ⟨pre, h1, h2, h3, h4, h5, h6, h7, h8, h9⟩ :=
        waterfall_phase1_spec sc (List.replicate nws.length 0) avail
          nws.length out hout.symm
          (fun p hp =>
            ⟨by
              simpa using
                (sorted_cols_mem nws p (by rw [← hsc]; exact hp)).1,
              getD_replicate_zero _ _⟩)
          (by rw [hsc]; exact sorted_cols_nodup nws)
          (by rw [hsc, sorted_cols_length])
      have hmemi : (i, nws.getD i 0) ∈ sc := by
        rw [hsc]
        exact sorted_cols_mem_self nws i hi
      by_cases hru : 0 < out.unalloc
      · rw [if_pos hru] at halloc
        have hb := waterfall_phase2_min5 _ _ _ sc out.widths out.unalloc
          out.remaining ws halloc (i, nws.getD i 0) hmemi
          (by rw [h2]; simpa using hi)
        rcases hb with h5' | ⟨heq, hne⟩
        · have := Nat.min_le_right (nws.getD i 0) 5
          simp only at h5'
          omega
        · simp only at heq hne
          rw [h1] at hmemi
          rcases List.mem_append.mp hmemi with hp | hp
          · have hpe := h8 _ hp
            simp only at hpe
            rw [heq, hpe]
            exact Nat.min_le_left _ _
          · have := h7 _ hp
            simp only at this
            exact absurd this hne
      · rw [if_neg hru] at halloc
        have hws : ws = out.widths := (Option.some.inj halloc).symm
        have hsclen : sc.length = nws.length := by
          rw [hsc, sorted_cols_length]
        have hprerest : pre.length + out.rest.length = nws.length := by
          rw [← hsclen, h1]
          simp
        have hrest : out.rest = [] :=
          List.length_eq_zero.mp (by omega)
        have hpre : pre = sc := by
          rw [h1, hrest, List.append_nil]
        have hval := h8 (i, nws.getD i 0) (by rw [hpre]; exact hmemi)
        simp only at hval
        rw [hws, hval]
        exact Nat.min_le_left _ _

/-- Witness for `c3_min_width`: naturals `[1, 2]`, available width 100,
result `[1, 99]`, column 0. -/
theorem c3_min_width_witness :
    (allocate_constrained [1, 2] 100 = some [1, 99] ∧
        (0 : Nat) < ([1, 2] : List Nat).length) ∧
      min (([1, 2] : List Nat).getD 0 0) 5 ≤ ([1, 99] : List Nat).getD 0 0 :=
  ⟨⟨by decide, by decide⟩,
    c3_min_width [1, 2] 100 [1, 99] (by decide) 0 (by decide)⟩

/-- C2: evaluating the constrained allocator at natural widths
`[0, 10, 10]` with available width 9 (oversubscribed, one column of natural
width 0).  The zero-width column is granted width 0 in the first pass, so
the proportional pass recounts it and its `unallocated_cols -= 1`
bookkeeping underflows — the model returns `none` exactly where the source
subtraction underflows. -/
theorem c2_unallocated_cols_underflow :
    allocate_constrained [0, 10, 10] 9 = none := by decide

/-- C1 counterexample: natural widths `[10, 10]` with available width 1 are
oversubscribed, yet the allocator returns `[5, 5]` whose sum 10 is not the
available width — the 5-minimum floors overspend the budget. -/
theorem c1_sum_not_exact_cex :
    1 < ([10, 10] : List Nat).sum ∧
      allocate_constrained [10, 10] 1 = some [5, 5] ∧
        ([5, 5] : List Nat).sum ≠ 1 :=
  ⟨by decide, by decide, by decide⟩

/-- C3 counterexample: natural widths `[1, 2]` with available width 100 (the
fits-naturally branch) give widths `[1, 99]`: the first column's width 1 is
below the configured minimum width 5. -/
theorem c3_below_minimum_cex :
    allocate_constrained [1, 2] 100 = some [1, 99] ∧
      ([1, 99] : List Nat).getD 0 0 < 5 :=
  ⟨by decide, by decide⟩

/-- C4 counterexample: three columns of natural widths `[6, 13, 13]`, no row
numbers, terminal width 24: the budget meets the total minimum requirement
(overhead 9 + 5·3 = 24), but the allocated widths `[5, 6, 5]` sum to 16 and
16 + 9 = 25 exceeds the terminal width. -/
theorem c4_budget_exceeded_cex :
    layout_overhead 3 0 + 5 * 3 ≤ 24 ∧
      calculate_column_widths_wrap [6, 13, 13] 24 0 = some [5, 6, 5] ∧
        ¬ ([5, 6, 5] : List Nat).sum + layout_overhead 3 0 ≤ 24 :=
  ⟨by decide, by decide, by decide⟩

/-- C6 counterexample: the single column of natural width 0 with available
width 7 satisfies `sum ≤ available`, but the allocator takes the zero-total
fallback and returns `[10]`, not the natural width plus the leftover
(`0 + 7 = 7`). -/
theorem c6_zero_total_cex :
    ([0] : List Nat).sum ≤ 7 ∧
      allocate_constrained [0] 7 = some [10] ∧
        ([10] : List Nat).getD 0 0 ≠
          ([0] : List Nat).getD 0 0 + (7 - ([0] : List Nat).sum) :=
  ⟨by decide, by decide, by decide⟩

/-- C8 counterexample: with every character one column wide, `"abcd x"`
wrapped at width 3 by the Word policy gives `["abc", "d", "x"]` (the
char-split fallback breaks `"abcd"`), but re-joining with single spaces and
re-wrapping gives `["abc", "d x"]` — not the same line sequence. -/
theorem c8_not_idempotent_cex :
    wrap_text_word (fun _ => 1) "abcd x".toList 3 =
        ["abc".toList, "d".toList, "x".toList] ∧
      wrap_text_word (fun _ => 1)
          (join_with_spaces (wrap_text_word (fun _ => 1) "abcd x".toList 3))
          3 ≠
        wrap_text_word (fun _ => 1) "abcd x".toList 3 :=
  ⟨by decide, by decide⟩
